import Mathlib

/-!
Verification of the rabbit-lyrics core (dist/rabbit-lyrics.js): the timestamp
codec, the lyrics parser, the playback synchronizer / gotoLine state machine
and the scroll animator, shallowly embedded over `List Char` strings and
exact rational numbers (JS floating-point numbers are modelled as `ℚ`; the
JS value `Infinity`, used as the unresolved end bound, is modelled as `none`
in an `Option ℚ`).
-/

namespace RabbitLyrics

set_option maxRecDepth 1000000

unseal Rat.mul Rat.inv Rat.add Rat.sub

/-- ASCII digit test, matching the JS regex class `\d` (no unicode flag). -/
def isDigitChar (c : Char) : Bool := '0' ≤ c && c ≤ '9'

/-- JS `String.prototype.trim` whitespace set (the characters relevant here:
ASCII whitespace, NBSP, line/paragraph separators, BOM). -/
def isJsWhitespace (c : Char) : Bool :=
  c = ' ' || c = '\t' || c = '\n' || c = '\r' || c = '\x0b' || c = '\x0c' ||
  c = ' ' || c = ' ' || c = ' ' || c = '﻿'

/-- `str.trim()`: drop whitespace from both ends. -/
def jsTrim (l : List Char) : List Char :=
  ((l.dropWhile isJsWhitespace).reverse.dropWhile isJsWhitespace).reverse

/-- `str.split('\n')`: always returns at least one component. -/
def splitLines : List Char → List (List Char)
  | [] => [[]]
  | c :: cs =>
    if c = '\n' then [] :: splitLines cs
    else
      match splitLines cs with
      | [] => [[c]]
      | h :: t => (c :: h) :: t

/-- `parseInt` on a digit string (exact; JS precision loss above 2^53 is not
modelled, numbers are treated as exact reals as in the spec's data model). -/
def digitsToNat (l : List Char) : Nat :=
  l.foldl (fun n c => n * 10 + (c.toNat - '0'.toNat)) 0

/-- Maximal digit run and the remainder, used for each `\d+` of the token
regexes (backtracking never helps here because a digit can never match the
delimiter that follows the run). -/
def takeDigits (l : List Char) : List Char × List Char :=
  (l.takeWhile isDigitChar, l.dropWhile isDigitChar)

/-- The literal characters of a timestamp token `[d1:d2.d3]`. -/
def tokenOf (d1 d2 d3 : List Char) : List Char :=
  '[' :: (d1 ++ ':' :: (d2 ++ '.' :: (d3 ++ [']'])))

/-- Consume one expected literal character. -/
def expectChar (c : Char) : List Char → Option (List Char)
  | x :: xs => if x = c then some xs else none
  | [] => none

/-- Consume one `\d+`: a nonempty maximal digit run. -/
def matchDigits1 (l : List Char) : Option (List Char × List Char) :=
  match takeDigits l with
  | (d, r) => if d = [] then none else some (d, r)

/-- Match the token regex `\[\d+:\d+\.\d+\]` (with its three digit groups)
against the start of the string; return the groups and the rest of the
string after the match. -/
def matchTokenGroups (l : List Char) : Option ((List Char × List Char × List Char) × List Char) := do
  let r0 ← expectChar '[' l
  let (d1, r1) ← matchDigits1 r0
  let r2 ← expectChar ':' r1
  let (d2, r3) ← matchDigits1 r2
  let r4 ← expectChar '.' r3
  let (d3, r5) ← matchDigits1 r4
  let r6 ← expectChar ']' r5
  some ((d1, d2, d3), r6)

/-- `parseInt(minutes) * 60 + parseFloat(seconds.fraction)` as an exact
rational. -/
def decodeVal (d1 d2 d3 : List Char) : ℚ :=
  (digitsToNat d1 : ℚ) * 60 + (digitsToNat d2 : ℚ) + (digitsToNat d3 : ℚ) / 10 ^ d3.length

/-- `decodeTimeStamp`: search for the first match of `\[(\d+):(\d+\.\d+)\]`
anywhere in the string and combine its groups; `none` models the exception
raised by the original when no match exists (`results.length` on `null`). -/
def decodeTimeStamp : List Char → Option ℚ
  | [] => none
  | c :: cs =>
    match matchTokenGroups (c :: cs) with
    | some ((d1, d2, d3), _) => some (decodeVal d1 d2 d3)
    | none => decodeTimeStamp cs

/-- `decodeTimeStamp` as used by the parser, which only ever passes
well-formed tokens (so the default is never taken; see
`decodeTimeStamp_tokenOf`). -/
def decode0 (l : List Char) : ℚ := (decodeTimeStamp l).getD 0

/-- `line.match(/\[\d+:\d+\.\d+\]/g)`, fuelled to keep the global scan
structurally recursive (the fuel is always instantiated with the string
length, which suffices). After a hit the scan resumes after the matched
token; after a miss it advances one character. -/
def scanTokensF : Nat → List Char → List (List Char)
  | 0, _ => []
  | _, [] => []
  | fuel + 1, c :: cs =>
    match matchTokenGroups (c :: cs) with
    | some ((d1, d2, d3), rest) => tokenOf d1 d2 d3 :: scanTokensF fuel rest
    | none => scanTokensF fuel cs

/-- All timestamp tokens of a line, in order. -/
def scanTokens (l : List Char) : List (List Char) := scanTokensF l.length l

/-- `line.match(/^\[\d+:\d+\.\d+\]/g)`: the token anchored at the start of
the line, if any. -/
def beginToken (l : List Char) : Option (List Char) :=
  match matchTokenGroups l with
  | some ((d1, d2, d3), _) => some (tokenOf d1 d2 d3)
  | none => none

/-- `line.match(/\[\d+:\d+\.\d+\]$/g)`: the leftmost token that ends exactly
at the end of the line, if any. -/
def endTokenScan : List Char → Option (List Char)
  | [] => none
  | c :: cs =>
    match matchTokenGroups (c :: cs) with
    | some ((d1, d2, d3), rest) =>
      if rest = [] then some (tokenOf d1 d2 d3) else endTokenScan cs
    | none => endTokenScan cs

/-- `line.replace(/\[\d+:\d+\.\d+\]/g, '')`, fuelled like `scanTokensF`. -/
def stripTokensF : Nat → List Char → List Char
  | 0, l => l
  | _, [] => []
  | fuel + 1, c :: cs =>
    match matchTokenGroups (c :: cs) with
    | some (_, rest) => stripTokensF fuel rest
    | none => c :: stripTokensF fuel cs

/-- The line text with every timestamp token removed. -/
def stripTokens (l : List Char) : List Char := stripTokensF l.length l

/-- The non-breaking space character rendered by the `&nbsp;` placeholder
the parser substitutes for empty line texts. -/
def nbspChar : Char := ' '

/-- One parsed lyrics line, mirroring the data stored on each line `<div>`:
the rendered text content, `dataset.start`, `dataset.end` (`none` models the
value `Infinity`, i.e. "unbounded"), and the presence of the `active` class. -/
structure LyricsLine where
  text : List Char
  start : ℚ
  ending : Option ℚ
  active : Bool
deriving DecidableEq

/-- Default line used with `List.getD`. -/
def dfltLine : LyricsLine := ⟨[], 0, none, false⟩

/-- Retroactive closing of one pending line: the source keeps the explicit
list `lineElementsWithoutEndingTime`, whose members are exactly the lines of
the current parse whose `dataset.end` is still `Infinity` (they are pushed
when `end` is set to `Infinity` and dropped when it is set to a value, and
nothing else writes `end`), so closing the pending list is mapping this
function over the lines produced so far. -/
def closeEnding (v : ℚ) (l : LyricsLine) : LyricsLine :=
  if l.ending = none then { l with ending := some v } else l

/-- Processing of one raw line of the `parseLyrics` loop: trim the line,
scan its tokens, close all pending lines to the first token's value when
this line has a token and pending lines exist, resolve `start` from the
leading token (advancing the time cursor) or the cursor, resolve `end`
from the trailing token (advancing the cursor) or leave it unbounded, strip
the tokens, and append the new line (the `&nbsp;` placeholder for empty
texts is modelled by its rendered character). Returns the updated cursor
and line list. -/
def parseStep (lastTime : ℚ) (acc : List LyricsLine) (raw : List Char) : ℚ × List LyricsLine :=
  let line := jsTrim raw
  let timeStamps := scanTokens line
  let acc1 :=
    if timeStamps ≠ [] ∧ acc.any (fun e => e.ending.isNone) then
      acc.map (closeEnding (decode0 (timeStamps.headD [])))
    else acc
  let startPair : ℚ × ℚ :=
    match beginToken line with
    | some t => (decode0 t, decode0 t)
    | none => (lastTime, lastTime)
  let endPair : Option ℚ × ℚ :=
    match endTokenScan line with
    | some t => (some (decode0 t), decode0 t)
    | none => (none, startPair.2)
  let stripped := stripTokens line
  let text := if stripped = [] then [nbspChar] else stripped
  (endPair.2,
    acc1 ++ [{ text := text, start := startPair.1, ending := endPair.1, active := false }])

/-- The per-line loop of `parseLyrics`: `lastTime` is the running time
cursor, `acc` the lines produced so far in this call. -/
def parseLinesAux : ℚ → List LyricsLine → List (List Char) → List LyricsLine
  | _, acc, [] => acc
  | lastTime, acc, raw :: rest =>
    parseLinesAux (parseStep lastTime acc raw).1 (parseStep lastTime acc raw).2 rest

/-- The line record produced by `parseStep` for a raw line without any
timestamp token: both bounds fall back to the running time cursor
(`start` is the cursor, `end` stays unbounded). -/
def noTokenLine (lastTime : ℚ) (raw : List Char) : LyricsLine :=
  { text := if stripTokens (jsTrim raw) = [] then [nbspChar] else stripTokens (jsTrim raw)
    start := lastTime
    ending := none
    active := false }

/-- Parse raw text: trim, split on newlines, then run the line loop with
time cursor 0 and no pending lines. -/
def parseLines (rawText : List Char) : List LyricsLine :=
  parseLinesAux 0 [] (splitLines (jsTrim rawText))

/-- The observable state of the lyrics container element: its text content,
whether its `innerHTML` contains `'<div'` (i.e. it already holds parsed line
markup), and the accumulated `this.lineElements` records. -/
structure ElemState where
  textContent : List Char
  hasDivChild : Bool
  lineElements : List LyricsLine
deriving DecidableEq

/-- `parseLyrics`: guard against reparsing already-rendered output (text
with at most one split component while line markup is present), otherwise
clear the container, parse, and append the new line elements. After an
unguarded parse the container text is the concatenation of the rendered
line texts and at least one `<div>` child exists. -/
def parseLyrics (s : ElemState) : ElemState :=
  let lines := splitLines (jsTrim s.textContent)
  if lines.length ≤ 1 ∧ s.hasDivChild = true then s
  else
    let newRecs := parseLinesAux 0 [] lines
    { textContent := (newRecs.map (fun r => r.text)).flatten
      hasDivChild := decide (0 < newRecs.length)
      lineElements := s.lineElements ++ newRecs }

/-- Constructor constants. -/
def scrollerIntervalDuration : ℚ := 200

def scrollerIntervalStep : ℚ := 10

/-- The engine state touched by `synchronizer` and `gotoLine`: the line
elements, the explicit override `currentLine` (initialized to `-1`), and
the scroller arming status (`scrollerTimer` plus whether the recurring
interval is scheduled). -/
structure SyncState where
  lineElements : List LyricsLine
  currentLine : Int
  scrollerTimer : ℚ
  scrollerIntervalActive : Bool
deriving DecidableEq

/-- Index-aware map over the line elements, modelling the `forEach` /
indexed `for` loops together with `lineElements.indexOf(element)` (each
line `<div>` is a distinct object, so `indexOf` is its position). -/
def mapWithIndex (f : Nat → LyricsLine → LyricsLine) : Nat → List LyricsLine → List LyricsLine
  | _, [] => []
  | i, l :: ls => f i l :: mapWithIndex f (i + 1) ls

/-- Index-aware existence test over the line elements. -/
def anyWithIndex (p : Nat → LyricsLine → Bool) : Nat → List LyricsLine → Bool
  | _, [] => false
  | i, l :: ls => p i l || anyWithIndex p (i + 1) ls

/-- `time >= element.dataset.start && time <= element.dataset.end &&
element.dataset.end != Infinity` (dist synchronizer, first branch). -/
def timeContained (t : ℚ) (l : LyricsLine) : Bool :=
  decide (l.start ≤ t) &&
    (match l.ending with
     | some e => decide (t ≤ e)
     | none => true) &&
    !(l.ending.isNone)

/-- The new active state of the line at index `i` computed by the dist
`synchronizer`: time containment with a resolved end, or else the explicit
`currentLine` override. -/
def syncLineActive (t : ℚ) (cur : Int) (i : Nat) (l : LyricsLine) : Bool :=
  if timeContained t l then true
  else if decide (0 ≤ cur) && decide ((i : Int) = cur) then true
  else false

/-- The dist `synchronizer` body at playback position `t`: recompute every
line's active flag, and if any flag flipped while the new active set is
nonempty, re-arm the scroller (reset its timer to the full duration and
schedule the recurring interval). -/
def synchronizer (t : ℚ) (s : SyncState) : SyncState :=
  let newLines := mapWithIndex (fun i l => { l with active := syncLineActive t s.currentLine i l }) 0 s.lineElements
  let changed := anyWithIndex (fun i l => syncLineActive t s.currentLine i l != l.active) 0 s.lineElements
  let hasActive := anyWithIndex (fun i l => syncLineActive t s.currentLine i l) 0 s.lineElements
  if changed && hasActive then
    { s with lineElements := newLines
             scrollerTimer := scrollerIntervalDuration
             scrollerIntervalActive := true }
  else
    { s with lineElements := newLines }

/-- The synchronizer of the un-bundled source file (part_000), which lacks
both the `currentLine` override and the `end != Infinity` exclusion:
`time >= start && time <= end` with `t <= Infinity` always true. -/
def synchronizerSrc (t : ℚ) (s : SyncState) : SyncState :=
  let activeNow := fun (l : LyricsLine) =>
    decide (l.start ≤ t) &&
      (match l.ending with
       | some e => decide (t ≤ e)
       | none => true)
  let newLines := s.lineElements.map (fun l => { l with active := activeNow l })
  let changed := s.lineElements.any (fun l => activeNow l != l.active)
  let hasActive := s.lineElements.any activeNow
  if changed && hasActive then
    { s with lineElements := newLines
             scrollerTimer := scrollerIntervalDuration
             scrollerIntervalActive := true }
  else
    { s with lineElements := newLines }

/-- `gotoLine(line)`: activate exactly the line whose index equals `line`
(deactivating all others), record the override in `currentLine` when a line
matched, and re-arm the scroller under the same condition as the
synchronizer. -/
def gotoLine (line : Int) (s : SyncState) : SyncState :=
  let newLines := mapWithIndex
    (fun i l => if (i : Int) = line then { l with active := true } else { l with active := false })
    0 s.lineElements
  let newCurrent :=
    if anyWithIndex (fun i _ => decide ((i : Int) = line)) 0 s.lineElements then line
    else s.currentLine
  let changed := anyWithIndex (fun i l => decide ((i : Int) = line) != l.active) 0 s.lineElements
  let hasActive := anyWithIndex (fun i _ => decide ((i : Int) = line)) 0 s.lineElements
  if changed && hasActive then
    { lineElements := newLines
      currentLine := newCurrent
      scrollerTimer := scrollerIntervalDuration
      scrollerIntervalActive := true }
  else
    { s with lineElements := newLines, currentLine := newCurrent }

/-- The scroll animator state: the remaining-time counter, the target
offset `this.scrollTop`, the current offset `this.element.scrollTop`, and
whether the recurring interval is scheduled. -/
structure ScrollerState where
  scrollerTimer : ℚ
  scrollTop : ℚ
  elementScrollTop : ℚ
  intervalActive : Bool
deriving DecidableEq

/-- One `scroller` tick: when the remaining time is exhausted, cancel the
interval; otherwise close a `step/remaining` fraction of the remaining gap
and decrement the remaining time by one step. -/
def scroller (s : ScrollerState) : ScrollerState :=
  if s.scrollerTimer ≤ 0 then { s with intervalActive := false }
  else
    let distance := s.scrollTop - s.elementScrollTop
    let movement := distance * scrollerIntervalStep / s.scrollerTimer
    { s with elementScrollTop := s.elementScrollTop + movement
             scrollerTimer := s.scrollerTimer - scrollerIntervalStep }

/-- Iterated scroller ticks. -/
def scrollerIter : Nat → ScrollerState → ScrollerState
  | 0, s => s
  | n + 1, s => scrollerIter n (scroller s)

/-- The successive active flags of line `j` as the synchronizer is invoked
at each playback position of `ts` in order. -/
def lineFlagTrace (j : Nat) : SyncState → List ℚ → List Bool
  | _, [] => []
  | s, t :: ts =>
    let s1 := synchronizer t s
    ((s1.lineElements.getD j dfltLine).active) :: lineFlagTrace j s1 ts

/-- Number of `false → true` transitions of a flag sequence, starting from
the given previous value. -/
def risesFrom : Bool → List Bool → Nat
  | _, [] => 0
  | prev, b :: bs => (if !prev && b then 1 else 0) + risesFrom b bs

/-- Number of `true → false` transitions of a flag sequence, starting from
the given previous value. -/
def fallsFrom : Bool → List Bool → Nat
  | _, [] => 0
  | prev, b :: bs => (if prev && !b then 1 else 0) + fallsFrom b bs

/-- The decoded values of all timestamp tokens of a raw-line sequence, in
document order (per-line scan order, lines in input order). -/
def tokenVals (lines : List (List Char)) : List ℚ :=
  (lines.map (fun raw => (scanTokens (jsTrim raw)).map decode0)).flatten

/-- The parsed lines of the spec's scenario-1 input. -/
def scn1Lines : List LyricsLine := parseLines (String.toList "[0:01.00]Hello\n[0:03.50]World")

/-- The freshly constructed engine state over the scenario-1 lines: the
constructor initializes `currentLine` to `-1` (no override) and no scroller
is armed yet. -/
def scn1State : SyncState := ⟨scn1Lines, -1, 0, false⟩

/-! ### Structural lemmas about the token matcher -/

theorem expectChar_eq_some {c : Char} {l r : List Char} :
    expectChar c l = some r ↔ l = c :: r := by
  cases l with
  | nil => simp [expectChar]
  | cons x xs => by_cases h : x = c <;> simp [expectChar, h]

theorem matchDigits1_eq_some {l d r : List Char} :
    matchDigits1 l = some (d, r) ↔
      l.takeWhile isDigitChar ≠ [] ∧ d = l.takeWhile isDigitChar ∧ r = l.dropWhile isDigitChar := by
  by_cases h : l.takeWhile isDigitChar = [] <;>
    simp [matchDigits1, takeDigits, h, eq_comm]

theorem takeWhile_digits_append {d : List Char} (hd : ∀ c ∈ d, isDigitChar c = true)
    {c : Char} (hc : isDigitChar c = false) (r : List Char) :
    (d ++ c :: r).takeWhile isDigitChar = d ∧ (d ++ c :: r).dropWhile isDigitChar = c :: r := by
  induction d with
  | nil => simp [List.takeWhile_cons, List.dropWhile_cons, hc]
  | cons a d ih =>
    have ha : isDigitChar a = true := hd a (by simp)
    have ih2 := ih (fun x hx => hd x (by simp [hx]))
    simp [List.takeWhile_cons, List.dropWhile_cons, ha, ih2.1, ih2.2]

theorem matchDigits1_append {d : List Char} (hne : d ≠ []) (hd : ∀ c ∈ d, isDigitChar c = true)
    {c : Char} (hc : isDigitChar c = false) (r : List Char) :
    matchDigits1 (d ++ c :: r) = some (d, c :: r) := by
  obtain ⟨h1, h2⟩ := takeWhile_digits_append hd hc r
  simp [matchDigits1, takeDigits, h1, h2, hne]

theorem lbracket_not_digit : isDigitChar '[' = false := by decide

theorem colon_not_digit : isDigitChar ':' = false := by decide

theorem dot_not_digit : isDigitChar '.' = false := by decide

theorem rbracket_not_digit : isDigitChar ']' = false := by decide

/-- Well-formedness conditions on the three digit groups of a token. -/
def goodGroups (d1 d2 d3 : List Char) : Prop :=
  (d1 ≠ [] ∧ d2 ≠ [] ∧ d3 ≠ []) ∧
    ((∀ c ∈ d1, isDigitChar c = true) ∧ (∀ c ∈ d2, isDigitChar c = true) ∧
      (∀ c ∈ d3, isDigitChar c = true))

theorem matchTokenGroups_tokenOf {d1 d2 d3 : List Char} (rest : List Char)
    (hg : goodGroups d1 d2 d3) :
    matchTokenGroups (tokenOf d1 d2 d3 ++ rest) = some ((d1, d2, d3), rest) := by
  obtain ⟨⟨h1, h2, h3⟩, g1, g2, g3⟩ := hg
  have e : tokenOf d1 d2 d3 ++ rest
      = '[' :: (d1 ++ ':' :: (d2 ++ '.' :: (d3 ++ ']' :: rest))) := by
    simp [tokenOf]
  rw [e]
  simp [matchTokenGroups, expectChar,
    matchDigits1_append h1 g1 colon_not_digit,
    matchDigits1_append h2 g2 dot_not_digit,
    matchDigits1_append h3 g3 rbracket_not_digit]

theorem matchTokenGroups_eq_some {l : List Char} {d1 d2 d3 rest : List Char}
    (h : matchTokenGroups l = some ((d1, d2, d3), rest)) :
    l = tokenOf d1 d2 d3 ++ rest ∧ goodGroups d1 d2 d3 := by
  simp only [matchTokenGroups, Option.bind_eq_some, bind, Option.pure_def] at h
  obtain ⟨r0, hr0, h⟩ := h
  obtain ⟨⟨e1, r1⟩, hd1, h⟩ := h
  obtain ⟨r2, hr2, h⟩ := h
  obtain ⟨⟨e2, r3⟩, hd2, h⟩ := h
  obtain ⟨r4, hr4, h⟩ := h
  obtain ⟨⟨e3, r5⟩, hd3, h⟩ := h
  obtain ⟨r6, hr6, h⟩ := h
  dsimp only at hr2 hr4 hr6 h
  obtain ⟨⟨he1, he2, he3⟩, hrest⟩ : (e1 = d1 ∧ e2 = d2 ∧ e3 = d3) ∧ r6 = rest := by
    simpa using h
  subst he1; subst he2; subst he3; subst hrest
  rw [expectChar_eq_some] at hr0 hr2 hr4 hr6
  rw [matchDigits1_eq_some] at hd1 hd2 hd3
  obtain ⟨hne1, hq1, hw1⟩ := hd1
  obtain ⟨hne2, hq2, hw2⟩ := hd2
  obtain ⟨hne3, hq3, hw3⟩ := hd3
  have hsplit1 : r0 = e1 ++ r1 := by
    rw [hq1, hw1]; exact (List.takeWhile_append_dropWhile ..).symm
  have hsplit2 : r2 = e2 ++ r3 := by
    rw [hq2, hw2]; exact (List.takeWhile_append_dropWhile ..).symm
  have hsplit3 : r4 = e3 ++ r5 := by
    rw [hq3, hw3]; exact (List.takeWhile_append_dropWhile ..).symm
  constructor
  · rw [hr0, hsplit1, hr2, hsplit2, hr4, hsplit3, hr6]
    simp [tokenOf]
  · refine ⟨⟨by rw [hq1]; exact hne1, by rw [hq2]; exact hne2, by rw [hq3]; exact hne3⟩,
      ?_, ?_, ?_⟩
    · intro c hc; rw [hq1] at hc; exact List.mem_takeWhile_imp hc
    · intro c hc; rw [hq2] at hc; exact List.mem_takeWhile_imp hc
    · intro c hc; rw [hq3] at hc; exact List.mem_takeWhile_imp hc

theorem tokenOf_ne_nil (d1 d2 d3 : List Char) : tokenOf d1 d2 d3 ≠ [] := by
  simp [tokenOf]

theorem matchTokenGroups_rest_length {l : List Char} {g : List Char × List Char × List Char}
    {rest : List Char} (h : matchTokenGroups l = some (g, rest)) :
    rest.length < l.length := by
  obtain ⟨g1, g2, g3⟩ := g
  obtain ⟨hl, _⟩ := matchTokenGroups_eq_some h
  rw [hl, List.length_append]
  have : 0 < (tokenOf g1 g2 g3).length := by simp [tokenOf]
  omega

/-! ### Lemmas about the global token scan -/

theorem scanTokensF_congr : ∀ (f1 f2 : Nat) (l : List Char),
    l.length ≤ f1 → l.length ≤ f2 → scanTokensF f1 l = scanTokensF f2 l := by
  intro f1
  induction f1 with
  | zero =>
    intro f2 l h1 _
    have : l = [] := List.eq_nil_of_length_eq_zero (Nat.le_zero.mp h1)
    subst this
    cases f2 <;> rfl
  | succ f ih =>
    intro f2 l h1 h2
    cases l with
    | nil => cases f2 <;> rfl
    | cons c cs =>
      cases f2 with
      | zero => simp at h2
      | succ f2' =>
        cases hm : matchTokenGroups (c :: cs) with
        | none =>
          simp only [scanTokensF, hm]
          exact ih f2' cs (by simp at h1; omega) (by simp at h2; omega)
        | some gr =>
          obtain ⟨⟨d1, d2, d3⟩, rest⟩ := gr
          have hlt : rest.length < (c :: cs).length := matchTokenGroups_rest_length hm
          simp only [scanTokensF, hm]
          rw [ih f2' rest (by simp at h1 hlt; omega) (by simp at h2 hlt; omega)]

theorem scanTokens_nil : scanTokens [] = [] := rfl

theorem scanTokens_cons_some {c : Char} {cs : List Char} {d1 d2 d3 rest : List Char}
    (h : matchTokenGroups (c :: cs) = some ((d1, d2, d3), rest)) :
    scanTokens (c :: cs) = tokenOf d1 d2 d3 :: scanTokens rest := by
  have hlt : rest.length < (c :: cs).length := matchTokenGroups_rest_length h
  unfold scanTokens
  simp only [List.length_cons, scanTokensF, h]
  rw [scanTokensF_congr cs.length rest.length rest (by simp at hlt; omega) le_rfl]

theorem scanTokens_cons_none {c : Char} {cs : List Char}
    (h : matchTokenGroups (c :: cs) = none) :
    scanTokens (c :: cs) = scanTokens cs := by
  unfold scanTokens
  simp only [List.length_cons, scanTokensF, h]

theorem scanTokensF_mem_wf : ∀ (fuel : Nat) (l tok : List Char),
    tok ∈ scanTokensF fuel l →
    ∃ d1 d2 d3, goodGroups d1 d2 d3 ∧ tok = tokenOf d1 d2 d3 := by
  intro fuel
  induction fuel with
  | zero => intro l tok h; simp [scanTokensF] at h
  | succ f ih =>
    intro l tok h
    cases l with
    | nil => simp [scanTokensF] at h
    | cons c cs =>
      cases hm : matchTokenGroups (c :: cs) with
      | none =>
        simp only [scanTokensF, hm] at h
        exact ih cs tok h
      | some gr =>
        obtain ⟨⟨d1, d2, d3⟩, rest⟩ := gr
        simp only [scanTokensF, hm] at h
        rcases List.mem_cons.mp h with h | h
        · exact ⟨d1, d2, d3, (matchTokenGroups_eq_some hm).2, h⟩
        · exact ih rest tok h

theorem scanTokens_mem_wf {l tok : List Char} (h : tok ∈ scanTokens l) :
    ∃ d1 d2 d3, goodGroups d1 d2 d3 ∧ tok = tokenOf d1 d2 d3 :=
  scanTokensF_mem_wf l.length l tok h

theorem drop_append_le {α : Type} : ∀ (n : Nat) (l1 l2 : List α), n ≤ l1.length →
    (l1 ++ l2).drop n = l1.drop n ++ l2 := by
  intro n
  induction n with
  | zero => simp
  | succ m ih =>
    intro l1 l2 h
    cases l1 with
    | nil => simp at h
    | cons a as => simpa using ih as l2 (by simp at h; omega)

theorem lbracket_not_mem_tail {d1 d2 d3 : List Char} (hg : goodGroups d1 d2 d3) :
    '[' ∉ d1 ++ ':' :: (d2 ++ '.' :: (d3 ++ [']'])) := by
  obtain ⟨_, g1, g2, g3⟩ := hg
  intro hmem
  rcases List.mem_append.mp hmem with h | h
  · exact absurd (g1 _ h) (by decide)
  rcases List.mem_cons.mp h with h | h
  · exact absurd h (by decide)
  rcases List.mem_append.mp h with h | h
  · exact absurd (g2 _ h) (by decide)
  rcases List.mem_cons.mp h with h | h
  · exact absurd h (by decide)
  rcases List.mem_append.mp h with h | h
  · exact absurd (g3 _ h) (by decide)
  rcases List.mem_cons.mp h with h | h
  · exact absurd h (by decide)
  · simp at h

theorem tokenOf_getElem_ne_lbracket {d1 d2 d3 : List Char} (hg : goodGroups d1 d2 d3)
    {i : Nat} (hi : 0 < i) (hlt : i < (tokenOf d1 d2 d3).length) :
    (tokenOf d1 d2 d3)[i] ≠ '[' := by
  obtain ⟨j, rfl⟩ : ∃ j, i = j + 1 := ⟨i - 1, by omega⟩
  have hlt2 : j < (d1 ++ ':' :: (d2 ++ '.' :: (d3 ++ [']']))).length := by
    simpa [tokenOf] using hlt
  have : (tokenOf d1 d2 d3)[j + 1] = (d1 ++ ':' :: (d2 ++ '.' :: (d3 ++ [']'])))[j] := rfl
  rw [this]
  intro hEq
  exact lbracket_not_mem_tail hg (hEq ▸ List.getElem_mem hlt2)

theorem token_mem_scan_self {d1 d2 d3 : List Char} (hg : goodGroups d1 d2 d3) :
    tokenOf d1 d2 d3 ∈ scanTokens (tokenOf d1 d2 d3) := by
  have hm : matchTokenGroups (tokenOf d1 d2 d3) = some ((d1, d2, d3), []) := by
    simpa using matchTokenGroups_tokenOf [] hg
  have h3 : scanTokens (tokenOf d1 d2 d3) = tokenOf d1 d2 d3 :: scanTokens [] :=
    scanTokens_cons_some hm
  rw [h3]
  exact List.mem_cons_self _ _

/-- A token occurrence that ends exactly at the end of the string is always
found by the global scan: no other match can overlap it, because `'['`
occurs in a token only at its first position. -/
theorem token_mem_scan_aux : ∀ (n : Nat) (pre d1 d2 d3 : List Char), pre.length ≤ n →
    goodGroups d1 d2 d3 →
    tokenOf d1 d2 d3 ∈ scanTokens (pre ++ tokenOf d1 d2 d3) := by
  intro n
  induction n with
  | zero =>
    intro pre d1 d2 d3 hlen hg
    have : pre = [] := List.eq_nil_of_length_eq_zero (Nat.le_zero.mp hlen)
    subst this
    simpa using token_mem_scan_self hg
  | succ n ih =>
    intro pre d1 d2 d3 hlen hg
    cases pre with
    | nil => simpa using token_mem_scan_self hg
    | cons p pre' =>
      rw [List.cons_append]
      cases hm : matchTokenGroups (p :: (pre' ++ tokenOf d1 d2 d3)) with
      | none =>
        rw [scanTokens_cons_none hm]
        exact ih pre' d1 d2 d3 (by simp at hlen; omega) hg
      | some gr =>
        obtain ⟨⟨e1, e2, e3⟩, rest⟩ := gr
        obtain ⟨hdec, hg'⟩ := matchTokenGroups_eq_some hm
        rw [scanTokens_cons_some hm]
        have hdec2 : (p :: pre') ++ tokenOf d1 d2 d3 = tokenOf e1 e2 e3 ++ rest := by
          rw [List.cons_append, hdec]
        by_cases hle : (tokenOf e1 e2 e3).length ≤ (p :: pre').length
        · have hrest : rest = ((p :: pre').drop (tokenOf e1 e2 e3).length) ++ tokenOf d1 d2 d3 := by
            have h1 : (tokenOf e1 e2 e3 ++ rest).drop (tokenOf e1 e2 e3).length = rest :=
              List.drop_left _ _
            rw [← h1, ← hdec2, drop_append_le _ _ _ hle]
          refine List.mem_cons_of_mem _ ?_
          rw [hrest]
          have htne : tokenOf e1 e2 e3 ≠ [] := tokenOf_ne_nil e1 e2 e3
          have hpos : 0 < (tokenOf e1 e2 e3).length := List.length_pos.mpr htne
          exact ih _ d1 d2 d3 (by simp at hlen ⊢; omega) hg
        · exfalso
          push_neg at hle
          have hn0 : 0 < (p :: pre').length := by simp
          have hLlen : (p :: pre').length < ((p :: pre') ++ tokenOf d1 d2 d3).length := by
            have : 0 < (tokenOf d1 d2 d3).length :=
              List.length_pos.mpr (tokenOf_ne_nil d1 d2 d3)
            simp; omega
          have hLlen2 : (p :: pre').length < (tokenOf e1 e2 e3 ++ rest).length := by
            rw [← hdec2]; exact hLlen
          have e1get : ((p :: pre') ++ tokenOf d1 d2 d3).get ⟨(p :: pre').length, hLlen⟩
              = '[' := by
            rw [List.get_eq_getElem, List.getElem_append_right le_rfl]
            simp [tokenOf]
          have e2get : (tokenOf e1 e2 e3 ++ rest).get ⟨(p :: pre').length, hLlen2⟩
              = (tokenOf e1 e2 e3).get ⟨(p :: pre').length, hle⟩ := by
            rw [List.get_eq_getElem, List.get_eq_getElem]
            exact List.getElem_append_left hle
          have hEq : ∀ (h2 : (p :: pre').length < (tokenOf e1 e2 e3 ++ rest).length),
              ((p :: pre') ++ tokenOf d1 d2 d3).get ⟨(p :: pre').length, hLlen⟩
                = (tokenOf e1 e2 e3 ++ rest).get ⟨(p :: pre').length, h2⟩ := by
            rw [← hdec2]
            intro h2
            rfl
          have hEq2 := hEq hLlen2
          rw [e1get, e2get] at hEq2
          refine tokenOf_getElem_ne_lbracket hg' hn0 hle ?_
          simpa using hEq2.symm

theorem endTokenScan_eq_some : ∀ {l tok : List Char}, endTokenScan l = some tok →
    ∃ pre d1 d2 d3, goodGroups d1 d2 d3 ∧ tok = tokenOf d1 d2 d3 ∧ l = pre ++ tok := by
  intro l
  induction l with
  | nil => intro tok h; simp [endTokenScan] at h
  | cons c cs ih =>
    intro tok h
    cases hm : matchTokenGroups (c :: cs) with
    | none =>
      simp only [endTokenScan, hm] at h
      obtain ⟨pre, d1, d2, d3, hg, htok, hcs⟩ := ih h
      exact ⟨c :: pre, d1, d2, d3, hg, htok, by rw [List.cons_append, ← hcs]⟩
    | some gr =>
      obtain ⟨⟨d1, d2, d3⟩, rest⟩ := gr
      simp only [endTokenScan, hm] at h
      by_cases hr : rest = []
      · rw [if_pos hr] at h
        obtain ⟨hl, hg⟩ := matchTokenGroups_eq_some hm
        refine ⟨[], d1, d2, d3, hg, (Option.some.inj h).symm, ?_⟩
        rw [List.nil_append, ← Option.some.inj h, hl, hr, List.append_nil]
      · rw [if_neg hr] at h
        obtain ⟨pre, e1, e2, e3, hg, htok, hcs⟩ := ih h
        exact ⟨c :: pre, e1, e2, e3, hg, htok, by rw [List.cons_append, ← hcs]⟩

theorem endTokenScan_mem_scanTokens {l tok : List Char} (h : endTokenScan l = some tok) :
    tok ∈ scanTokens l := by
  obtain ⟨pre, d1, d2, d3, hg, htok, hl⟩ := endTokenScan_eq_some h
  subst htok; subst hl
  exact token_mem_scan_aux pre.length pre d1 d2 d3 le_rfl hg

theorem beginToken_eq_some {l tok : List Char} (h : beginToken l = some tok) :
    ∃ d1 d2 d3 rest, goodGroups d1 d2 d3 ∧ tok = tokenOf d1 d2 d3 ∧
      scanTokens l = tok :: scanTokens rest := by
  unfold beginToken at h
  cases hm : matchTokenGroups l with
  | none => rw [hm] at h; simp at h
  | some gr =>
    obtain ⟨⟨d1, d2, d3⟩, rest⟩ := gr
    rw [hm] at h
    simp only [Option.some.injEq] at h
    obtain ⟨hl, hg⟩ := matchTokenGroups_eq_some hm
    refine ⟨d1, d2, d3, rest, hg, h.symm, ?_⟩
    subst h
    rw [hl] at hm ⊢
    exact scanTokens_cons_some hm

theorem beginToken_none_of_scan_nil {l : List Char} (h : scanTokens l = []) :
    beginToken l = none := by
  cases l with
  | nil => rfl
  | cons c cs =>
    cases hm : matchTokenGroups (c :: cs) with
    | none => simp [beginToken, hm]
    | some gr =>
      obtain ⟨⟨d1, d2, d3⟩, rest⟩ := gr
      rw [scanTokens_cons_some hm] at h
      simp at h

theorem endTokenScan_none_of_scan_nil : ∀ {l : List Char}, scanTokens l = [] →
    endTokenScan l = none := by
  intro l
  induction l with
  | nil => intro _; rfl
  | cons c cs ih =>
    intro h
    cases hm : matchTokenGroups (c :: cs) with
    | none =>
      rw [scanTokens_cons_none hm] at h
      simp [endTokenScan, hm, ih h]
    | some gr =>
      obtain ⟨⟨d1, d2, d3⟩, rest⟩ := gr
      rw [scanTokens_cons_some hm] at h
      simp at h

/-! ### Lemmas about the timestamp codec -/

theorem decodeTimeStamp_tokenOf {d1 d2 d3 : List Char} (hg : goodGroups d1 d2 d3) :
    decodeTimeStamp (tokenOf d1 d2 d3) = some (decodeVal d1 d2 d3) := by
  have hm : matchTokenGroups ('[' :: (d1 ++ ':' :: (d2 ++ '.' :: (d3 ++ [']'])))) =
      some ((d1, d2, d3), []) := by
    simpa using matchTokenGroups_tokenOf [] hg
  show decodeTimeStamp ('[' :: (d1 ++ ':' :: (d2 ++ '.' :: (d3 ++ [']'])))) = _
  simp [decodeTimeStamp, hm]

theorem decode0_tokenOf {d1 d2 d3 : List Char} (hg : goodGroups d1 d2 d3) :
    decode0 (tokenOf d1 d2 d3) = decodeVal d1 d2 d3 := by
  simp [decode0, decodeTimeStamp_tokenOf hg]

theorem decodeVal_nonneg (d1 d2 d3 : List Char) : 0 ≤ decodeVal d1 d2 d3 := by
  unfold decodeVal
  positivity

theorem decodeTimeStamp_nonneg : ∀ {l : List Char} {v : ℚ},
    decodeTimeStamp l = some v → 0 ≤ v := by
  intro l
  induction l with
  | nil => intro v h; simp [decodeTimeStamp] at h
  | cons c cs ih =>
    intro v h
    cases hm : matchTokenGroups (c :: cs) with
    | none =>
      simp only [decodeTimeStamp, hm] at h
      exact ih h
    | some gr =>
      obtain ⟨⟨d1, d2, d3⟩, rest⟩ := gr
      simp only [decodeTimeStamp, hm, Option.some.injEq] at h
      rw [← h]
      exact decodeVal_nonneg d1 d2 d3

theorem decode0_nonneg (l : List Char) : 0 ≤ decode0 l := by
  unfold decode0
  cases h : decodeTimeStamp l with
  | none => simp
  | some v => simpa using decodeTimeStamp_nonneg h

/-! ### Lemmas about token stripping -/

theorem stripTokensF_subset : ∀ (fuel : Nat) (l : List Char) (c : Char),
    c ∈ stripTokensF fuel l → c ∈ l := by
  intro fuel
  induction fuel with
  | zero => intro l c h; simpa [stripTokensF] using h
  | succ f ih =>
    intro l c h
    cases l with
    | nil => simp [stripTokensF] at h
    | cons x xs =>
      cases hm : matchTokenGroups (x :: xs) with
      | none =>
        simp only [stripTokensF, hm] at h
        rcases List.mem_cons.mp h with h | h
        · simp [h]
        · exact List.mem_cons_of_mem _ (ih xs c h)
      | some gr =>
        obtain ⟨⟨d1, d2, d3⟩, rest⟩ := gr
        simp only [stripTokensF, hm] at h
        obtain ⟨hl, _⟩ := matchTokenGroups_eq_some hm
        rw [hl]
        exact List.mem_append_right _ (ih rest c h)

theorem stripTokens_subset {l : List Char} {c : Char} (h : c ∈ stripTokens l) : c ∈ l :=
  stripTokensF_subset l.length l c h

theorem decodeTimeStamp_of_mem_scan {l tok : List Char} (h : tok ∈ scanTokens l) :
    decodeTimeStamp tok = some (decode0 tok) := by
  obtain ⟨d1, d2, d3, hg, rfl⟩ := scanTokens_mem_wf h
  rw [decodeTimeStamp_tokenOf hg, decode0_tokenOf hg]

/-! ### Lemmas about the parser loop -/

theorem getD_eq_getElem {α : Type} (l : List α) (d : α) {n : Nat} (h : n < l.length) :
    l.getD n d = l[n] := by
  simp [List.getElem?_eq_getElem h]

theorem getD_append_left {α : Type} (l1 l2 : List α) (d : α) {n : Nat} (h : n < l1.length) :
    (l1 ++ l2).getD n d = l1.getD n d := by
  have h2 : (l1 ++ l2)[n]? = l1[n]? := List.getElem?_append_left h
  simp only [List.getD_eq_getElem?_getD, h2]

theorem getD_map_lt {α β : Type} (f : α → β) (l : List α) (d : β) (d' : α) {n : Nat}
    (h : n < l.length) : (l.map f).getD n d = f (l.getD n d') := by
  simp only [List.getD_eq_getElem?_getD, List.getElem?_map, List.getElem?_eq_getElem h]
  simp

theorem parseStep_no_tokens {raw : List Char} (h : scanTokens (jsTrim raw) = [])
    (lastTime : ℚ) (acc : List LyricsLine) :
    parseStep lastTime acc raw = (lastTime, acc ++ [noTokenLine lastTime raw]) := by
  simp only [parseStep, noTokenLine]
  rw [beginToken_none_of_scan_nil h, endTokenScan_none_of_scan_nil h]
  simp [h]

theorem parseStep_snd_length (lastTime : ℚ) (acc : List LyricsLine) (raw : List Char) :
    (parseStep lastTime acc raw).2.length = acc.length + 1 := by
  simp only [parseStep]
  split <;> simp

theorem parseLinesAux_length : ∀ (rest : List (List Char)) (lastTime : ℚ)
    (acc : List LyricsLine),
    (parseLinesAux lastTime acc rest).length = acc.length + rest.length := by
  intro rest
  induction rest with
  | nil => intro lastTime acc; rfl
  | cons raw rest ih =>
    intro lastTime acc
    simp only [parseLinesAux]
    rw [ih, parseStep_snd_length]
    simp only [List.length_cons]
    omega

theorem parseStep_getElem_some {lastTime : ℚ} {acc : List LyricsLine} {raw : List Char}
    {j : Nat} (hj : j < acc.length) {v : ℚ}
    (h : (acc.getD j dfltLine).ending = some v) :
    ((parseStep lastTime acc raw).2.getD j dfltLine).ending = some v := by
  simp only [parseStep]
  by_cases hc : scanTokens (jsTrim raw) ≠ [] ∧ acc.any (fun e => e.ending.isNone) = true
  · rw [if_pos hc, getD_append_left _ _ _ (by simpa using hj),
      getD_map_lt _ _ _ dfltLine hj]
    unfold closeEnding
    rw [if_neg (by rw [h]; simp)]
    exact h
  · rw [if_neg hc, getD_append_left _ _ _ hj]
    exact h

theorem parseLinesAux_getElem_some : ∀ (rest : List (List Char)) (lastTime : ℚ)
    (acc : List LyricsLine) (j : Nat) (v : ℚ), j < acc.length →
    (acc.getD j dfltLine).ending = some v →
    ((parseLinesAux lastTime acc rest).getD j dfltLine).ending = some v := by
  intro rest
  induction rest with
  | nil => intro lastTime acc j v _ h; exact h
  | cons raw rest ih =>
    intro lastTime acc j v hj h
    simp only [parseLinesAux]
    refine ih _ _ j v ?_ (parseStep_getElem_some hj h)
    rw [parseStep_snd_length]
    omega

theorem parseStep_close_pending {lastTime : ℚ} {acc : List LyricsLine} {raw : List Char}
    (hts : scanTokens (jsTrim raw) ≠ [])
    (hpend : acc.any (fun e => e.ending.isNone) = true)
    {j : Nat} (hj : j < acc.length)
    (hnone : (acc.getD j dfltLine).ending = none) :
    ((parseStep lastTime acc raw).2.getD j dfltLine).ending
      = some (decode0 ((scanTokens (jsTrim raw)).headD [])) := by
  simp only [parseStep]
  rw [if_pos ⟨hts, hpend⟩, getD_append_left _ _ _ (by simpa using hj),
    getD_map_lt _ _ _ dfltLine hj]
  unfold closeEnding
  rw [if_pos hnone]

theorem parseLinesAux_no_token_build : ∀ (pre : List (List Char)) (lastTime : ℚ)
    (acc : List LyricsLine) (rest : List (List Char)),
    (∀ raw ∈ pre, scanTokens (jsTrim raw) = []) →
    parseLinesAux lastTime acc (pre ++ rest)
      = parseLinesAux lastTime (acc ++ pre.map (noTokenLine lastTime)) rest := by
  intro pre
  induction pre with
  | nil => intro lastTime acc rest _; simp
  | cons raw pre ih =>
    intro lastTime acc rest hno
    have h0 : scanTokens (jsTrim raw) = [] := hno raw (by simp)
    rw [List.cons_append]
    simp only [parseLinesAux]
    rw [parseStep_no_tokens h0]
    rw [ih lastTime (acc ++ [noTokenLine lastTime raw]) rest
      (fun r hr => hno r (by simp [hr]))]
    simp

/-! ### Lemmas about the sync engine -/

theorem mapWithIndex_length (f : Nat → LyricsLine → LyricsLine) :
    ∀ (ls : List LyricsLine) (st : Nat), (mapWithIndex f st ls).length = ls.length := by
  intro ls
  induction ls with
  | nil => intro st; rfl
  | cons a as ih => intro st; simp [mapWithIndex, ih]

theorem mapWithIndex_getD (f : Nat → LyricsLine → LyricsLine) :
    ∀ (ls : List LyricsLine) (st j : Nat), j < ls.length →
    (mapWithIndex f st ls).getD j dfltLine = f (st + j) (ls.getD j dfltLine) := by
  intro ls
  induction ls with
  | nil => intro st j h; simp at h
  | cons a as ih =>
    intro st j h
    cases j with
    | zero => simp [mapWithIndex]
    | succ j' =>
      simp only [mapWithIndex, List.getD_cons_succ]
      rw [ih (st + 1) j' (by simpa using h)]
      congr 1
      omega

theorem anyWithIndex_eq_true_iff (p : Nat → LyricsLine → Bool) :
    ∀ (ls : List LyricsLine) (st : Nat),
    anyWithIndex p st ls = true ↔
      ∃ j, j < ls.length ∧ p (st + j) (ls.getD j dfltLine) = true := by
  intro ls
  induction ls with
  | nil => intro st; simp [anyWithIndex]
  | cons a as ih =>
    intro st
    simp only [anyWithIndex, Bool.or_eq_true, ih (st + 1)]
    constructor
    · rintro (h | ⟨j, hj, hp⟩)
      · exact ⟨0, by simp, by simpa using h⟩
      · exact ⟨j + 1, by simpa using hj, by simpa [Nat.add_assoc, Nat.add_comm 1 j] using hp⟩
    · rintro ⟨j, hj, hp⟩
      cases j with
      | zero => exact Or.inl (by simpa using hp)
      | succ j' =>
        refine Or.inr ⟨j', by simpa using hj, ?_⟩
        simpa [Nat.add_assoc, Nat.add_comm 1 j'] using hp

theorem synchronizer_lineElements (t : ℚ) (s : SyncState) :
    (synchronizer t s).lineElements
      = mapWithIndex (fun i l => { l with active := syncLineActive t s.currentLine i l })
          0 s.lineElements := by
  unfold synchronizer
  dsimp only
  split <;> rfl

theorem synchronizer_currentLine (t : ℚ) (s : SyncState) :
    (synchronizer t s).currentLine = s.currentLine := by
  unfold synchronizer
  dsimp only
  split <;> rfl

theorem gotoLine_lineElements (line : Int) (s : SyncState) :
    (gotoLine line s).lineElements
      = mapWithIndex
          (fun i l => if (i : Int) = line then { l with active := true }
                      else { l with active := false })
          0 s.lineElements := by
  unfold gotoLine
  dsimp only
  split <;> rfl

theorem timeContained_eq_true_iff (t : ℚ) (l : LyricsLine) :
    timeContained t l = true ↔ (l.start ≤ t ∧ ∃ e, l.ending = some e ∧ t ≤ e) := by
  unfold timeContained
  cases he : l.ending with
  | none => simp [he]
  | some e => simp [he]

theorem syncLineActive_eq (t : ℚ) (cur : Int) (i : Nat) (l : LyricsLine) :
    syncLineActive t cur i l
      = (timeContained t l || (decide (0 ≤ cur) && decide ((i : Int) = cur))) := by
  unfold syncLineActive
  cases timeContained t l <;> cases (decide (0 ≤ cur) && decide ((i : Int) = cur)) <;> simp

/-! ### Claim theorems -/

/-- C3: for every well-formed token `[m:s.f]` (m a nonempty digit string,
s and f nonempty digit strings), `decodeTimeStamp` returns
`m * 60 + (s + f / 10 ^ |f|)`, i.e. minutes times sixty plus the decimal
seconds value. (The concrete instance `[2:17.88] = 137.88` is the witness.) -/
theorem decodeTimeStamp_spec (d1 d2 d3 : List Char)
    (h1 : d1 ≠ []) (h2 : d2 ≠ []) (h3 : d3 ≠ [])
    (g1 : ∀ c ∈ d1, isDigitChar c = true) (g2 : ∀ c ∈ d2, isDigitChar c = true)
    (g3 : ∀ c ∈ d3, isDigitChar c = true) :
    decodeTimeStamp (tokenOf d1 d2 d3)
      = some ((digitsToNat d1 : ℚ) * 60
          + ((digitsToNat d2 : ℚ) + (digitsToNat d3 : ℚ) / 10 ^ d3.length)) := by
  rw [decodeTimeStamp_tokenOf ⟨⟨h1, h2, h3⟩, g1, g2, g3⟩]
  simp only [decodeVal, add_assoc]

/-- Witness for C3: `decodeTimeStamp "[2:17.88]" = 137.88`. -/
theorem decodeTimeStamp_spec_witness :
    decodeTimeStamp (String.toList "[2:17.88]") = some (13788 / 100) := by
  have h := decodeTimeStamp_spec ['2'] ['1', '7'] ['8', '8'] (by decide) (by decide) (by decide)
    (by decide) (by decide) (by decide)
  have e : String.toList "[2:17.88]" = tokenOf ['2'] ['1', '7'] ['8', '8'] := by decide
  rw [e, h]
  decide

/-- C6: the scroll animator armed with target offset 100 from offset 0,
total duration 200 ms and step 10 ms reaches remaining time 0 and offset
exactly 100 after 20 ticks (in the exact-rational model of JS numbers), and
the 21st tick cancels the recurring interval. -/
theorem scroller_converges :
    (scrollerIter 20 ⟨200, 100, 0, true⟩).scrollerTimer = 0 ∧
    (scrollerIter 20 ⟨200, 100, 0, true⟩).elementScrollTop = 100 ∧
    (scrollerIter 20 ⟨200, 100, 0, true⟩).intervalActive = true ∧
    (scrollerIter 21 ⟨200, 100, 0, true⟩).intervalActive = false := by
  decide

/-- Counterexample to C9: parsing empty raw text on a fresh container is
not a no-op and does not produce an empty line sequence: it appends exactly
one line record. -/
theorem parse_empty_cex :
    parseLyrics ⟨[], false, []⟩ ≠ ⟨[], false, []⟩ ∧
    (parseLyrics ⟨[], false, []⟩).lineElements.length = 1 := by
  decide

/-- C9 (amended): parsing empty raw text on a fresh container produces
exactly one placeholder line record — text a single non-breaking space,
start 0, end unbounded, inactive — because splitting the empty string still
yields one (empty) raw line. -/
theorem parse_empty_singleton :
    parseLyrics ⟨[], false, []⟩ =
      ⟨[nbspChar], true,
        [{ text := [nbspChar], start := 0, ending := none, active := false }]⟩ := by
  decide

/-- C1: after `synchronizer` runs at playback position `t`, the line at
index `i` is active iff (`t` lies in the inclusive interval `[start, end]`
and `end` is resolved, i.e. not the unbounded `Infinity` placeholder) or
the explicit override `currentLine` is set (nonnegative) and equals `i`;
every other line is inactive. In particular a line whose end remained
unbounded is never activated by time containment alone. -/
theorem synchronizer_active_iff (t : ℚ) (s : SyncState) (i : Nat)
    (h : i < s.lineElements.length) :
    (((synchronizer t s).lineElements.getD i dfltLine).active = true ↔
      (((s.lineElements.getD i dfltLine).start ≤ t ∧
        (∃ e, (s.lineElements.getD i dfltLine).ending = some e ∧ t ≤ e)) ∨
       (0 ≤ s.currentLine ∧ (i : Int) = s.currentLine))) := by
  rw [synchronizer_lineElements, mapWithIndex_getD _ _ _ _ h]
  simp only [Nat.zero_add]
  show syncLineActive t s.currentLine i (s.lineElements.getD i dfltLine) = true ↔ _
  rw [syncLineActive_eq]
  simp only [Bool.or_eq_true, Bool.and_eq_true, decide_eq_true_eq,
    timeContained_eq_true_iff]

/-- Witness for C1: at t = 2 the scenario-1 line 0 (window [1, 3.5]) is
active. -/
theorem synchronizer_active_iff_witness :
    ((synchronizer 2 scn1State).lineElements.getD 0 dfltLine).active = true :=
  (synchronizer_active_iff 2 scn1State 0 (by decide)).mpr
    (Or.inl ⟨by decide, ⟨7 / 2, by decide, by decide⟩⟩)

/-- C5: for every in-range index `i`, `gotoLine i` makes line `i` active
and every other line inactive — override activation is exclusive at the
moment of the call, regardless of which lines are time-contained (the flags
computed by `gotoLine` do not depend on the playback position at all). -/
theorem gotoLine_active_iff (s : SyncState) (i : Nat) (_hi : i < s.lineElements.length)
    (j : Nat) (hj : j < s.lineElements.length) :
    (((gotoLine (i : Int) s).lineElements.getD j dfltLine).active = true ↔ j = i) := by
  rw [gotoLine_lineElements, mapWithIndex_getD _ _ _ _ hj]
  simp only [Nat.zero_add]
  by_cases hc : (j : Int) = (i : Int)
  · rw [if_pos hc]
    have hji : j = i := by exact_mod_cast hc
    simp [hji]
  · rw [if_neg hc]
    have hji : j ≠ i := by
      intro he
      exact hc (by exact_mod_cast he)
    simp [hji]

/-- Witness for C5: `gotoLine 1` on the scenario-1 state activates line 1
and deactivates line 0. -/
theorem gotoLine_active_iff_witness :
    ((gotoLine ((1 : Nat) : Int) scn1State).lineElements.getD 1 dfltLine).active = true ∧
    ((gotoLine ((1 : Nat) : Int) scn1State).lineElements.getD 0 dfltLine).active ≠ true := by
  constructor
  · exact (gotoLine_active_iff scn1State 1 (by decide) 1 (by decide)).mpr rfl
  · intro hact
    exact absurd ((gotoLine_active_iff scn1State 1 (by decide) 0 (by decide)).mp hact)
      (by decide)

/-- C10: for every index outside `[0, number of lines)`, `gotoLine` sets
every line inactive, leaves the explicit override `currentLine` unchanged,
and arms no scroll animation (timer and interval state untouched), because
the collected active set is empty. -/
theorem gotoLine_out_of_range (s : SyncState) (line : Int)
    (h : line < 0 ∨ (s.lineElements.length : Int) ≤ line) :
    (∀ j, j < s.lineElements.length →
      ((gotoLine line s).lineElements.getD j dfltLine).active = false) ∧
    (gotoLine line s).currentLine = s.currentLine ∧
    (gotoLine line s).scrollerTimer = s.scrollerTimer ∧
    (gotoLine line s).scrollerIntervalActive = s.scrollerIntervalActive := by
  have hno : anyWithIndex (fun i _ => decide ((i : Int) = line)) 0 s.lineElements = false := by
    rw [Bool.eq_false_iff]
    intro hc
    rw [anyWithIndex_eq_true_iff] at hc
    obtain ⟨j, hj, hp⟩ := hc
    simp only [Nat.zero_add, decide_eq_true_eq] at hp
    omega
  have hflag : ∀ j, j < s.lineElements.length →
      ((gotoLine line s).lineElements.getD j dfltLine).active = false := by
    intro j hj
    rw [gotoLine_lineElements, mapWithIndex_getD _ _ _ _ hj]
    simp only [Nat.zero_add]
    rw [if_neg (by intro hc; omega)]
  refine ⟨hflag, ?_, ?_, ?_⟩ <;>
    · unfold gotoLine
      dsimp only
      rw [hno]
      simp

/-- Witness for C10: `gotoLine 5` on the two-line scenario-1 state leaves
line 0 inactive and the override unchanged. -/
theorem gotoLine_out_of_range_witness :
    ((gotoLine 5 scn1State).lineElements.getD 0 dfltLine).active = false ∧
    (gotoLine 5 scn1State).currentLine = scn1State.currentLine := by
  obtain ⟨hall, hcur, _, _⟩ := gotoLine_out_of_range scn1State 5 (by decide)
  exact ⟨hall 0 (by decide), hcur⟩

/-- C2: when raw lines `L0..L(k-1)` carry no timestamp token and line `Lk`
is the first line containing one, the parser closes the end bound of every
one of `L0..L(k-1)` to the decoded value of the first token found anywhere
on `Lk` (the pending-unbounded set is cleared, so these bounds survive to
the final output unchanged). -/
theorem parse_boundary_closing (rawLines : List (List Char)) (k : Nat)
    (hk : k < rawLines.length)
    (h1 : ∀ j, j < k → scanTokens (jsTrim (rawLines.getD j [])) = [])
    (h2 : scanTokens (jsTrim (rawLines.getD k [])) ≠ []) :
    ∃ v, decodeTimeStamp ((scanTokens (jsTrim (rawLines.getD k []))).headD []) = some v ∧
      ∀ j, j < k → ((parseLinesAux 0 [] rawLines).getD j dfltLine).ending = some v := by
  have hkE : rawLines.getD k [] = rawLines[k] := getD_eq_getElem _ _ hk
  have hmem : (scanTokens (jsTrim (rawLines.getD k []))).headD []
      ∈ scanTokens (jsTrim (rawLines.getD k [])) := by
    cases hscan : scanTokens (jsTrim (rawLines.getD k [])) with
    | nil => exact absurd hscan h2
    | cons t ts => simp
  refine ⟨decode0 ((scanTokens (jsTrim (rawLines.getD k []))).headD []),
    decodeTimeStamp_of_mem_scan hmem, ?_⟩
  intro j hj
  have hsplit : rawLines = rawLines.take k ++ (rawLines[k] :: rawLines.drop (k + 1)) := by
    conv_lhs => rw [← List.take_append_drop k rawLines]
    rw [List.drop_eq_getElem_cons hk]
  have hpre : ∀ raw ∈ rawLines.take k, scanTokens (jsTrim raw) = [] := by
    intro raw hmemt
    obtain ⟨i, hi, hraw⟩ := List.getElem_of_mem hmemt
    have hik : i < k := by
      rw [List.length_take] at hi
      omega
    have hgi : rawLines.getD i [] = raw := by
      rw [getD_eq_getElem _ _ (by omega)]
      rw [← hraw, List.getElem_take]
    rw [← hgi]
    exact h1 i hik
  conv_lhs => rw [hsplit, parseLinesAux_no_token_build _ _ _ _ hpre]
  set acc := (rawLines.take k).map (noTokenLine 0) with hacc
  have hlen : acc.length = k := by
    rw [hacc, List.length_map, List.length_take]
    omega
  simp only [List.nil_append, parseLinesAux]
  have hjacc : (acc.getD j dfltLine).ending = none := by
    rw [hacc, getD_map_lt _ _ _ [] (by rw [List.length_take]; omega)]
    rfl
  have hpend : acc.any (fun e => e.ending.isNone) = true := by
    rw [List.any_eq_true]
    refine ⟨acc.getD j dfltLine, ?_, by rw [hjacc]; rfl⟩
    rw [getD_eq_getElem _ _ (by omega)]
    exact List.getElem_mem (by omega)
  have hts' : scanTokens (jsTrim rawLines[k]) ≠ [] := by
    rw [← hkE]
    exact h2
  have hstep := @parseStep_close_pending 0 acc (rawLines[k]) hts' hpend j (by omega) hjacc
  refine parseLinesAux_getElem_some _ _ _ j _ ?_ ?_
  · rw [parseStep_snd_length]
    omega
  · rw [hkE]
    exact hstep

/-- Witness for C2 (prefix of scenario 2): parsing "Hello" then
"[0:05.00]World" closes line 0's end to 5. -/
theorem parse_boundary_closing_witness :
    ((parseLinesAux 0 [] [String.toList "Hello", String.toList "[0:05.00]World"]).getD 0
        dfltLine).ending = some 5 := by
  obtain ⟨v, hv, hall⟩ := parse_boundary_closing
    [String.toList "Hello", String.toList "[0:05.00]World"] 1 (by decide)
    (by
      intro j hj
      have hj0 : j = 0 := by omega
      subst hj0
      decide)
    (by decide)
  have h0 := hall 0 (by decide)
  have hv5 : v = 5 := by
    have he : decodeTimeStamp
        ((scanTokens (jsTrim (([String.toList "Hello",
          String.toList "[0:05.00]World"]).getD 1 []))).headD []) = some 5 := by decide
    exact Option.some.inj (hv.symm.trans he)
  rw [h0, hv5]

/-! ### Reparse guard and idempotence -/

theorem splitLines_length_pos : ∀ (l : List Char), 0 < (splitLines l).length := by
  intro l
  induction l with
  | nil => simp [splitLines]
  | cons c cs ih =>
    by_cases hc : c = '\n'
    · simp [splitLines, hc]
    · cases heq : splitLines cs with
      | nil => simp [splitLines, hc, heq]
      | cons h t => simp [splitLines, hc, heq]

theorem splitLines_of_no_newline : ∀ {l : List Char}, '\n' ∉ l → splitLines l = [l] := by
  intro l
  induction l with
  | nil => intro _; rfl
  | cons c cs ih =>
    intro h
    have hc : ¬(c = '\n') := by
      intro hc
      exact h (by simp [hc])
    have ih2 : splitLines cs = [cs] := ih (fun hmem => h (by simp [hmem]))
    simp [splitLines, hc, ih2]

theorem splitLines_mem_no_newline : ∀ (l : List Char) (x : List Char),
    x ∈ splitLines l → '\n' ∉ x := by
  intro l
  induction l with
  | nil =>
    intro x hx
    simp [splitLines] at hx
    simp [hx]
  | cons c cs ih =>
    intro x hx
    by_cases hc : c = '\n'
    · simp only [splitLines, if_pos hc] at hx
      rcases List.mem_cons.mp hx with hx | hx
      · simp [hx]
      · exact ih x hx
    · cases heq : splitLines cs with
      | nil =>
        have := splitLines_length_pos cs
        rw [heq] at this
        simp at this
      | cons hd tl =>
        simp only [splitLines, if_neg hc, heq] at hx
        rcases List.mem_cons.mp hx with hx | hx
        · subst hx
          intro hmem
          rcases List.mem_cons.mp hmem with hmem | hmem
          · exact hc hmem.symm
          · exact ih hd (by rw [heq]; exact List.mem_cons_self _ _) hmem
        · exact ih x (by rw [heq]; exact List.mem_cons_of_mem _ hx)

theorem jsTrim_subset : ∀ {l : List Char} {c : Char}, c ∈ jsTrim l → c ∈ l := by
  intro l c h
  unfold jsTrim at h
  rw [List.mem_reverse] at h
  have h2 : c ∈ (l.dropWhile isJsWhitespace).reverse :=
    (List.dropWhile_sublist _).mem h
  rw [List.mem_reverse] at h2
  exact (List.dropWhile_sublist _).mem h2

theorem closeEnding_text (v : ℚ) (l : LyricsLine) : (closeEnding v l).text = l.text := by
  unfold closeEnding
  split <;> rfl

theorem parseStep_text_mem {lastTime : ℚ} {acc : List LyricsLine} {raw : List Char}
    {e : LyricsLine} (he : e ∈ (parseStep lastTime acc raw).2) :
    (∃ a ∈ acc, e.text = a.text) ∨
      e.text = (if stripTokens (jsTrim raw) = [] then [nbspChar]
                else stripTokens (jsTrim raw)) := by
  simp only [parseStep] at he
  rw [List.mem_append] at he
  rcases he with he | he
  · left
    split at he
    · rw [List.mem_map] at he
      obtain ⟨a, ha, rfl⟩ := he
      exact ⟨a, ha, closeEnding_text _ _⟩
    · exact ⟨e, he, rfl⟩
  · right
    simp only [List.mem_singleton] at he
    subst he
    rfl

theorem parseLinesAux_text : ∀ (rest : List (List Char)) (lastTime : ℚ)
    (acc : List LyricsLine),
    (∀ e ∈ acc, '\n' ∉ e.text) → (∀ raw ∈ rest, '\n' ∉ raw) →
    ∀ e ∈ parseLinesAux lastTime acc rest, '\n' ∉ e.text := by
  intro rest
  induction rest with
  | nil => intro lastTime acc hacc _ e he; exact hacc e he
  | cons raw rest ih =>
    intro lastTime acc hacc hrest e he
    simp only [parseLinesAux] at he
    refine ih _ _ ?_ (fun r hr => hrest r (by simp [hr])) e he
    intro e' he'
    rcases parseStep_text_mem he' with ⟨a, ha, ht⟩ | ht
    · rw [ht]
      exact hacc a ha
    · rw [ht]
      split
      · decide
      · intro hmem
        exact hrest raw (by simp) (jsTrim_subset (stripTokens_subset hmem))

theorem parseLyrics_guard {s : ElemState} (h1 : '\n' ∉ jsTrim s.textContent)
    (h2 : s.hasDivChild = true) : parseLyrics s = s := by
  simp only [parseLyrics]
  rw [splitLines_of_no_newline h1]
  simp [h2]

/-- C8: parse is idempotent on its own output. When the container's trimmed
text contains no newline and the container already holds parsed line markup,
parse returns without touching anything; and running parse a second time
after any parse is a no-op (the rendered text of a parse contains no
newline and the container then holds line markup, so the guard fires). -/
theorem parseLyrics_idempotent (s : ElemState) :
    (('\n' ∉ jsTrim s.textContent) → s.hasDivChild = true → parseLyrics s = s) ∧
    parseLyrics (parseLyrics s) = parseLyrics s := by
  refine ⟨fun h1 h2 => parseLyrics_guard h1 h2, ?_⟩
  by_cases g : (splitLines (jsTrim s.textContent)).length ≤ 1 ∧ s.hasDivChild = true
  · have hs : parseLyrics s = s := by
      simp only [parseLyrics]
      rw [if_pos g]
    rw [hs]
    exact hs
  · have hs1 : parseLyrics s =
        { textContent := ((parseLinesAux 0 []
            (splitLines (jsTrim s.textContent))).map (fun r => r.text)).flatten
          hasDivChild := decide
            (0 < (parseLinesAux 0 [] (splitLines (jsTrim s.textContent))).length)
          lineElements := s.lineElements
            ++ parseLinesAux 0 [] (splitLines (jsTrim s.textContent)) } := by
      simp only [parseLyrics]
      rw [if_neg g]
    rw [hs1]
    apply parseLyrics_guard
    · intro hmem
      have hmem2 := jsTrim_subset hmem
      rw [List.mem_flatten] at hmem2
      obtain ⟨tl, htl, hnl⟩ := hmem2
      rw [List.mem_map] at htl
      obtain ⟨e, he, rfl⟩ := htl
      exact parseLinesAux_text (splitLines (jsTrim s.textContent)) 0 [] (by simp)
        (fun raw hraw => splitLines_mem_no_newline _ raw hraw) e he hnl
    · have hpos : 0 < (parseLinesAux 0 [] (splitLines (jsTrim s.textContent))).length := by
        rw [parseLinesAux_length]
        have := splitLines_length_pos (jsTrim s.textContent)
        omega
      simpa using hpos

/-- Witness for C8: a container with single-line text and line markup is
left untouched by parse. -/
theorem parseLyrics_idempotent_witness :
    parseLyrics ⟨String.toList "abc", true, []⟩ = ⟨String.toList "abc", true, []⟩ :=
  (parseLyrics_idempotent ⟨String.toList "abc", true, []⟩).1 (by decide) rfl

/-! ### Start/end containment under monotone timestamps -/

theorem tokenVals_cons (raw : List Char) (rest : List (List Char)) :
    tokenVals (raw :: rest)
      = (scanTokens (jsTrim raw)).map decode0 ++ tokenVals rest := by
  simp [tokenVals]

theorem tokenVals_nonneg {lines : List (List Char)} {v : ℚ} (hv : v ∈ tokenVals lines) :
    0 ≤ v := by
  unfold tokenVals at hv
  rw [List.mem_flatten] at hv
  obtain ⟨tl, htl, hv⟩ := hv
  rw [List.mem_map] at htl
  obtain ⟨raw, _, rfl⟩ := htl
  rw [List.mem_map] at hv
  obtain ⟨tok, _, rfl⟩ := hv
  exact decode0_nonneg tok

theorem parseStep_fst_eq (lastTime : ℚ) (acc : List LyricsLine) (raw : List Char) :
    (parseStep lastTime acc raw).1 =
      (match endTokenScan (jsTrim raw) with
       | some t => decode0 t
       | none =>
         match beginToken (jsTrim raw) with
         | some t => decode0 t
         | none => lastTime) := by
  simp only [parseStep]
  cases beginToken (jsTrim raw) <;> cases endTokenScan (jsTrim raw) <;> rfl

theorem parseStep_snd_eq (lastTime : ℚ) (acc : List LyricsLine) (raw : List Char) :
    (parseStep lastTime acc raw).2 =
      (if scanTokens (jsTrim raw) ≠ [] ∧ acc.any (fun e => e.ending.isNone) then
        acc.map (closeEnding (decode0 ((scanTokens (jsTrim raw)).headD [])))
      else acc)
      ++ [{ text := if stripTokens (jsTrim raw) = [] then [nbspChar]
                    else stripTokens (jsTrim raw)
            start := (match beginToken (jsTrim raw) with
                      | some t => decode0 t
                      | none => lastTime)
            ending := (match endTokenScan (jsTrim raw) with
                       | some t => some (decode0 t)
                       | none => none)
            active := false }] := by
  simp only [parseStep]
  cases beginToken (jsTrim raw) <;> cases endTokenScan (jsTrim raw) <;> rfl

theorem beginToken_val_mem {raw : List Char} {t : List Char}
    (h : beginToken (jsTrim raw) = some t) : t ∈ scanTokens (jsTrim raw) := by
  obtain ⟨d1, d2, d3, r, hg, htok, hscan⟩ := beginToken_eq_some h
  rw [hscan]
  exact List.mem_cons_self _ _

theorem parseStep_fst_ge {lastTime : ℚ} (acc : List LyricsLine) {raw : List Char}
    (h : ∀ v ∈ (scanTokens (jsTrim raw)).map decode0, lastTime ≤ v) :
    lastTime ≤ (parseStep lastTime acc raw).1 := by
  rw [parseStep_fst_eq]
  cases hend : endTokenScan (jsTrim raw) with
  | some t =>
    exact h _ (List.mem_map_of_mem _ (endTokenScan_mem_scanTokens hend))
  | none =>
    cases hbeg : beginToken (jsTrim raw) with
    | some t => exact h _ (List.mem_map_of_mem _ (beginToken_val_mem hbeg))
    | none => exact le_refl lastTime

theorem parseLinesAux_start_le_end : ∀ (rest : List (List Char)) (lastTime : ℚ)
    (acc : List LyricsLine),
    (tokenVals rest).Pairwise (· ≤ ·) →
    (∀ v ∈ tokenVals rest, lastTime ≤ v) →
    (∀ e ∈ acc, e.ending = none → e.start ≤ lastTime) →
    (∀ e ∈ acc, ∀ v, e.ending = some v → e.start ≤ v) →
    ∀ e ∈ parseLinesAux lastTime acc rest, ∀ v, e.ending = some v → e.start ≤ v := by
  intro rest
  induction rest with
  | nil => intro lastTime acc _ _ _ hpsome e he v hev; exact hpsome e he v hev
  | cons raw rest ih =>
    intro lastTime acc hmono hlast hpnone hpsome
    rw [tokenVals_cons] at hmono hlast
    obtain ⟨hpw_vs, hpw_rest, hcross⟩ := List.pairwise_append.mp hmono
    have hlast_vs : ∀ v ∈ (scanTokens (jsTrim raw)).map decode0, lastTime ≤ v :=
      fun v hv => hlast v (List.mem_append_left _ hv)
    have hlast_rest : ∀ v ∈ tokenVals rest, lastTime ≤ v :=
      fun v hv => hlast v (List.mem_append_right _ hv)
    have hfst_ge : lastTime ≤ (parseStep lastTime acc raw).1 :=
      parseStep_fst_ge acc hlast_vs
    simp only [parseLinesAux]
    apply ih
    · exact hpw_rest
    · -- the new time cursor is below every later token value
      intro v hv
      rw [parseStep_fst_eq]
      cases hend : endTokenScan (jsTrim raw) with
      | some t =>
        exact hcross _ (List.mem_map_of_mem _ (endTokenScan_mem_scanTokens hend)) v hv
      | none =>
        cases hbeg : beginToken (jsTrim raw) with
        | some t => exact hcross _ (List.mem_map_of_mem _ (beginToken_val_mem hbeg)) v hv
        | none => exact hlast_rest v hv
    · -- pending entries stay below the new time cursor
      intro e he hnone
      rw [parseStep_snd_eq] at he
      rw [List.mem_append] at he
      rcases he with he | he
      · split at he
        · -- the closing pass leaves no pending entry
          exfalso
          rw [List.mem_map] at he
          obtain ⟨a, _, rfl⟩ := he
          unfold closeEnding at hnone
          split at hnone <;> simp_all
        · exact le_trans (hpnone e he hnone) hfst_ge
      · -- the freshly appended entry
        simp only [List.mem_singleton] at he
        subst he
        simp only at hnone ⊢
        rw [parseStep_fst_eq]
        cases hend : endTokenScan (jsTrim raw) with
        | some t => rw [hend] at hnone; simp at hnone
        | none =>
          cases hbeg : beginToken (jsTrim raw) with
          | some t => exact le_refl _
          | none => exact le_refl _
    · -- resolved entries satisfy start ≤ end
      intro e he v hev
      rw [parseStep_snd_eq] at he
      rw [List.mem_append] at he
      rcases he with he | he
      · split at he
        · rename_i hguard
          rw [List.mem_map] at he
          obtain ⟨a, ha, rfl⟩ := he
          unfold closeEnding at hev ⊢
          split at hev
          · -- a pending entry closed to the first token's value
            rename_i hanone
            simp only [Option.some.injEq] at hev
            split
            · simp only
              rw [← hev]
              refine le_trans (hpnone a ha hanone) ?_
              apply hlast_vs
              apply List.mem_map_of_mem
              obtain ⟨t, ts, hts⟩ : ∃ t ts, scanTokens (jsTrim raw) = t :: ts := by
                cases hscan : scanTokens (jsTrim raw) with
                | nil => exact absurd hscan hguard.1
                | cons t ts => exact ⟨t, ts, rfl⟩
              rw [hts]
              simp
            · simp_all
          · -- an already-resolved entry is unchanged
            rename_i hasome
            split
            · rename_i hcond
              exact absurd hcond hasome
            · exact hpsome a ha v hev
        · exact hpsome e he v hev
      · -- the freshly appended entry
        simp only [List.mem_singleton] at he
        subst he
        simp only at hev ⊢
        cases hend : endTokenScan (jsTrim raw) with
        | some t =>
          rw [hend] at hev
          simp only [Option.some.injEq] at hev
          have htmem : decode0 t ∈ (scanTokens (jsTrim raw)).map decode0 :=
            List.mem_map_of_mem _ (endTokenScan_mem_scanTokens hend)
          cases hbeg : beginToken (jsTrim raw) with
          | some tb =>
            -- the leading token heads the scan list, so its value is minimal
            obtain ⟨d1, d2, d3, r, hg, htok, hscan⟩ := beginToken_eq_some hbeg
            rw [← hev]
            rw [hscan, List.map_cons] at htmem
            simp only
            rcases List.mem_cons.mp htmem with hx | hx
            · rw [hx]
            · rw [hscan, List.map_cons] at hpw_vs
              exact List.rel_of_pairwise_cons hpw_vs hx
          | none =>
            rw [← hev]
            exact hlast_vs _ htmem
        | none => rw [hend] at hev; simp at hev

/-- Counterexample to C7: with decreasing timestamps the parser produces a
resolved line whose end precedes its start. -/
theorem parse_start_le_end_cex :
    ∃ l ∈ parseLines (String.toList "[0:10.0]A[0:05.0]"),
      ∃ v, l.ending = some v ∧ v < l.start := by
  refine ⟨(parseLines (String.toList "[0:10.0]A[0:05.0]")).getD 0 dfltLine,
    by decide, 5, by decide, by decide⟩

/-- C7 (amended): for every input text whose decoded token values are
non-decreasing in document order, every parsed line with a resolved end
satisfies `start ≤ end`. (Without the monotonicity hypothesis the property
fails, see the counterexample: the parser copies token values without
ordering checks.) -/
theorem parse_start_le_end_monotone (rawText : List Char)
    (hmono : (tokenVals (splitLines (jsTrim rawText))).Pairwise (· ≤ ·)) :
    ∀ l ∈ parseLines rawText, ∀ v, l.ending = some v → l.start ≤ v := by
  unfold parseLines
  apply parseLinesAux_start_le_end
  · exact hmono
  · intro v hv
    exact tokenVals_nonneg hv
  · intro e he
    simp at he
  · intro e he
    simp at he

/-- Witness for C7 (scenario 2): with monotone stamps, line 0 of
"Hello\n[0:05.00]World\n[0:08.00]End" satisfies `start ≤ 5`. -/
theorem parse_start_le_end_monotone_witness :
    ((parseLines (String.toList "Hello\n[0:05.00]World\n[0:08.00]End")).getD 0
        dfltLine).start ≤ 5 :=
  parse_start_le_end_monotone (String.toList "Hello\n[0:05.00]World\n[0:08.00]End")
    (by decide)
    ((parseLines (String.toList "Hello\n[0:05.00]World\n[0:08.00]End")).getD 0 dfltLine)
    (by decide) 5 (by decide)

/-! ### Sweep transitions (rises and falls of the active flag) -/

theorem risesFrom_cons_false (prev : Bool) (bs : List Bool) :
    risesFrom prev (false :: bs) = risesFrom false bs := by
  simp [risesFrom]

theorem risesFrom_true_cons_true (bs : List Bool) :
    risesFrom true (true :: bs) = risesFrom true bs := by
  simp [risesFrom]

theorem risesFrom_false_cons_true (bs : List Bool) :
    risesFrom false (true :: bs) = 1 + risesFrom true bs := by
  simp [risesFrom]

theorem fallsFrom_cons_true (prev : Bool) (bs : List Bool) :
    fallsFrom prev (true :: bs) = fallsFrom true bs := by
  simp [fallsFrom]

theorem fallsFrom_true_cons_false (bs : List Bool) :
    fallsFrom true (false :: bs) = 1 + fallsFrom false bs := by
  simp [fallsFrom]

theorem fallsFrom_false_cons_false (bs : List Bool) :
    fallsFrom false (false :: bs) = fallsFrom false bs := by
  simp [fallsFrom]

theorem risesFrom_all_false : ∀ {bs : List Bool} (prev : Bool),
    (∀ b ∈ bs, b = false) → risesFrom prev bs = 0 := by
  intro bs
  induction bs with
  | nil => intro prev _; rfl
  | cons x xs ih =>
    intro prev h
    have hx : x = false := h x (by simp)
    subst hx
    rw [risesFrom_cons_false]
    exact ih false (fun b hb => h b (by simp [hb]))

theorem fallsFrom_false_all_false : ∀ {bs : List Bool},
    (∀ b ∈ bs, b = false) → fallsFrom false bs = 0 := by
  intro bs
  induction bs with
  | nil => intro _; rfl
  | cons x xs ih =>
    intro h
    have hx : x = false := h x (by simp)
    subst hx
    rw [fallsFrom_false_cons_false]
    exact ih (fun b hb => h b (by simp [hb]))

theorem risesFrom_true_interval (a b : ℚ) : ∀ (ts : List ℚ), ts.Pairwise (· ≤ ·) →
    (∀ t ∈ ts, a ≤ t) →
    risesFrom true (ts.map (fun t => decide (a ≤ t ∧ t ≤ b))) = 0 := by
  intro ts
  induction ts with
  | nil => intro _ _; rfl
  | cons x xs ih =>
    intro hs hmem
    rw [List.pairwise_cons] at hs
    by_cases hx : a ≤ x ∧ x ≤ b
    · rw [List.map_cons, show decide (a ≤ x ∧ x ≤ b) = true by simp [hx],
        risesFrom_true_cons_true]
      exact ih hs.2 (fun t ht => hmem t (by simp [ht]))
    · have hbx : b < x := by
        rcases not_and_or.mp hx with h | h
        · exact absurd (hmem x (by simp)) h
        · exact lt_of_not_le h
      rw [List.map_cons, show decide (a ≤ x ∧ x ≤ b) = false by simp [hx],
        risesFrom_cons_false]
      apply risesFrom_all_false
      intro flag hflag
      rw [List.mem_map] at hflag
      obtain ⟨t, ht, rfl⟩ := hflag
      have hxt : x ≤ t := hs.1 t ht
      simp only [decide_eq_false_iff_not]
      intro hcontra
      exact absurd (le_trans hxt hcontra.2) (not_le.mpr hbx)

theorem risesFrom_interval (a b : ℚ) : ∀ (ts : List ℚ), ts.Pairwise (· ≤ ·) →
    (∃ t ∈ ts, a ≤ t ∧ t ≤ b) →
    risesFrom false (ts.map (fun t => decide (a ≤ t ∧ t ≤ b))) = 1 := by
  intro ts
  induction ts with
  | nil => intro _ h; simp at h
  | cons x xs ih =>
    intro hs hin
    rw [List.pairwise_cons] at hs
    by_cases hx : a ≤ x ∧ x ≤ b
    · rw [List.map_cons, show decide (a ≤ x ∧ x ≤ b) = true by simp [hx],
        risesFrom_false_cons_true]
      rw [risesFrom_true_interval a b xs hs.2
        (fun t ht => le_trans hx.1 (hs.1 t ht))]
    · rw [List.map_cons, show decide (a ≤ x ∧ x ≤ b) = false by simp [hx],
        risesFrom_cons_false]
      apply ih hs.2
      obtain ⟨t, ht, hprop⟩ := hin
      rcases List.mem_cons.mp ht with rfl | ht
      · exact absurd hprop hx
      · exact ⟨t, ht, hprop⟩

theorem fallsFrom_true_interval (a b : ℚ) : ∀ (ts : List ℚ), ts.Pairwise (· ≤ ·) →
    (∀ t ∈ ts, a ≤ t) → (∃ tl, ts.getLast? = some tl ∧ b < tl) →
    fallsFrom true (ts.map (fun t => decide (a ≤ t ∧ t ≤ b))) = 1 := by
  intro ts
  induction ts with
  | nil => intro _ _ h; simp at h
  | cons x xs ih =>
    intro hs hmem hlast
    rw [List.pairwise_cons] at hs
    by_cases hx : a ≤ x ∧ x ≤ b
    · have hxs : xs ≠ [] := by
        intro hnil
        subst hnil
        obtain ⟨tl, htl, hbtl⟩ := hlast
        simp at htl
        subst htl
        exact absurd hx.2 (not_le.mpr hbtl)
      rw [List.map_cons, show decide (a ≤ x ∧ x ≤ b) = true by simp [hx],
        fallsFrom_cons_true]
      apply ih hs.2 (fun t ht => hmem t (by simp [ht]))
      obtain ⟨y, ys, rfl⟩ := List.exists_cons_of_ne_nil hxs
      obtain ⟨tl, htl, hbtl⟩ := hlast
      rw [List.getLast?_cons_cons] at htl
      exact ⟨tl, htl, hbtl⟩
    · have hbx : b < x := by
        rcases not_and_or.mp hx with h | h
        · exact absurd (hmem x (by simp)) h
        · exact lt_of_not_le h
      rw [List.map_cons, show decide (a ≤ x ∧ x ≤ b) = false by simp [hx],
        fallsFrom_true_cons_false]
      rw [fallsFrom_false_all_false]
      · intro flag hflag
        rw [List.mem_map] at hflag
        obtain ⟨t, ht, rfl⟩ := hflag
        simp only [decide_eq_false_iff_not]
        intro hcontra
        exact absurd (le_trans (hs.1 t ht) hcontra.2) (not_le.mpr hbx)

theorem fallsFrom_interval (a b : ℚ) : ∀ (ts : List ℚ), ts.Pairwise (· ≤ ·) →
    (∃ t ∈ ts, a ≤ t ∧ t ≤ b) → (∃ tl, ts.getLast? = some tl ∧ b < tl) →
    fallsFrom false (ts.map (fun t => decide (a ≤ t ∧ t ≤ b))) = 1 := by
  intro ts
  induction ts with
  | nil => intro _ h _; simp at h
  | cons x xs ih =>
    intro hs hin hlast
    rw [List.pairwise_cons] at hs
    by_cases hx : a ≤ x ∧ x ≤ b
    · have hxs : xs ≠ [] := by
        intro hnil
        subst hnil
        obtain ⟨tl, htl, hbtl⟩ := hlast
        simp at htl
        subst htl
        exact absurd hx.2 (not_le.mpr hbtl)
      rw [List.map_cons, show decide (a ≤ x ∧ x ≤ b) = true by simp [hx],
        fallsFrom_cons_true]
      apply fallsFrom_true_interval a b xs hs.2
        (fun t ht => le_trans hx.1 (hs.1 t ht))
      obtain ⟨y, ys, rfl⟩ := List.exists_cons_of_ne_nil hxs
      obtain ⟨tl, htl, hbtl⟩ := hlast
      rw [List.getLast?_cons_cons] at htl
      exact ⟨tl, htl, hbtl⟩
    · rw [List.map_cons, show decide (a ≤ x ∧ x ≤ b) = false by simp [hx],
        fallsFrom_false_cons_false]
      obtain ⟨t, ht, hprop⟩ := hin
      rcases List.mem_cons.mp ht with rfl | ht
      · exact absurd hprop hx
      have hxs : xs ≠ [] := by
        intro hnil
        subst hnil
        simp at ht
      apply ih hs.2 ⟨t, ht, hprop⟩
      obtain ⟨y, ys, rfl⟩ := List.exists_cons_of_ne_nil hxs
      obtain ⟨tl, htl, hbtl⟩ := hlast
      rw [List.getLast?_cons_cons] at htl
      exact ⟨tl, htl, hbtl⟩

theorem timeContained_set_active (t : ℚ) (l : LyricsLine) (x : Bool) :
    timeContained t { l with active := x } = timeContained t l := rfl

theorem lineFlagTrace_eq_map (j : Nat) : ∀ (ts : List ℚ) (s : SyncState),
    s.currentLine < 0 → j < s.lineElements.length →
    lineFlagTrace j s ts
      = ts.map (fun t => timeContained t (s.lineElements.getD j dfltLine)) := by
  intro ts
  induction ts with
  | nil => intro s _ _; rfl
  | cons t ts ih =>
    intro s hcur hj
    simp only [lineFlagTrace, List.map_cons]
    have h1 : ((synchronizer t s).lineElements.getD j dfltLine).active
        = timeContained t (s.lineElements.getD j dfltLine) := by
      rw [synchronizer_lineElements, mapWithIndex_getD _ _ _ _ hj]
      simp only [Nat.zero_add]
      show syncLineActive t s.currentLine j _ = _
      rw [syncLineActive_eq]
      rw [show decide (0 ≤ s.currentLine) = false by simp; omega]
      simp
    have h3 : lineFlagTrace j (synchronizer t s) ts
        = ts.map (fun t' =>
            timeContained t' ((synchronizer t s).lineElements.getD j dfltLine)) :=
      ih _ (by rw [synchronizer_currentLine]; exact hcur)
        (by rw [synchronizer_lineElements, mapWithIndex_length]; exact hj)
    rw [h1, h3]
    refine congrArg _ (List.map_congr_left ?_)
    intro t' _
    rw [synchronizer_lineElements, mapWithIndex_getD _ _ _ _ hj]
    rfl

/-- Counterexample to C4: along the monotone sweep 0.5, 1, 2, 3.5, 3.75, 4
over the scenario-1 lines with no override, line 1 never becomes active —
in particular not at the t = 3.5 sample — because its end is unbounded and
the dist synchronizer excludes unbounded ends from time activation. -/
theorem sweep_line1_cex :
    lineFlagTrace 1 scn1State [1/2, 1, 2, 7/2, 15/4, 4]
      = [false, false, false, false, false, false] := by
  decide

/-- C4 (amended): for the parsed scenario-1 input and every monotone sweep
of playback positions from 0.5 to 4.0 that samples the window [1, 3.5] at
least once, line 0's active flag transitions false→true exactly once and
true→false exactly once; line 1 never becomes active (its end stayed
unbounded, and the dist synchronizer never time-activates unbounded lines —
only the un-bundled source variant without that exclusion would activate
line 1 at t = 3.5). -/
theorem sweep_transitions (ts : List ℚ) (hsort : ts.Pairwise (· ≤ ·))
    (_hhead : ts.head? = some (1/2)) (hlast : ts.getLast? = some 4)
    (hin : ∃ t ∈ ts, 1 ≤ t ∧ t ≤ 7/2) :
    risesFrom false (lineFlagTrace 0 scn1State ts) = 1 ∧
    fallsFrom false (lineFlagTrace 0 scn1State ts) = 1 ∧
    ∀ flag ∈ lineFlagTrace 1 scn1State ts, flag = false := by
  have hl0 : scn1State.lineElements.getD 0 dfltLine
      = ⟨String.toList "Hello", 1, some (7/2), false⟩ := by decide
  have hl1 : scn1State.lineElements.getD 1 dfltLine
      = ⟨String.toList "World", 7/2, none, false⟩ := by decide
  have hcur : scn1State.currentLine < 0 := by decide
  have htr0 : lineFlagTrace 0 scn1State ts
      = ts.map (fun t => decide (1 ≤ t ∧ t ≤ 7/2)) := by
    rw [lineFlagTrace_eq_map 0 ts scn1State hcur (by decide)]
    congr 1
    funext t
    rw [hl0]
    show (decide ((1 : ℚ) ≤ t) && decide (t ≤ 7/2) && !((some ((7 : ℚ)/2)).isNone)) = _
    simp [Bool.decide_and]
  have htr1 : lineFlagTrace 1 scn1State ts
      = ts.map (fun t => timeContained t (scn1State.lineElements.getD 1 dfltLine)) :=
    lineFlagTrace_eq_map 1 ts scn1State hcur (by decide)
  refine ⟨?_, ?_, ?_⟩
  · rw [htr0]
    exact risesFrom_interval 1 (7/2) ts hsort hin
  · rw [htr0]
    exact fallsFrom_interval 1 (7/2) ts hsort hin ⟨4, hlast, by norm_num⟩
  · rw [htr1]
    intro flag hflag
    rw [List.mem_map] at hflag
    obtain ⟨t, _, rfl⟩ := hflag
    rw [hl1]
    simp [timeContained]

/-- For the record: the synchronizer of the un-bundled source file
(part_000), which lacks the unbounded-end exclusion, does activate line 1
at t = 3.5 — the two synchronizers in the repository disagree on this
point, and the dist file is the one the specification's activation rule
describes. -/
theorem synchronizerSrc_line1_active :
    ((synchronizerSrc (7/2) scn1State).lineElements.getD 1 dfltLine).active = true := by
  decide

/-- Witness for C4's amended theorem: the concrete sweep 0.5, 1, 2, 3.5,
3.75, 4. -/
theorem sweep_transitions_witness :
    risesFrom false (lineFlagTrace 0 scn1State [1/2, 1, 2, 7/2, 15/4, 4]) = 1 ∧
    fallsFrom false (lineFlagTrace 0 scn1State [1/2, 1, 2, 7/2, 15/4, 4]) = 1 ∧
    ∀ flag ∈ lineFlagTrace 1 scn1State [1/2, 1, 2, 7/2, 15/4, 4], flag = false :=
  sweep_transitions [1/2, 1, 2, 7/2, 15/4, 4] (by decide) (by decide) (by decide)
    ⟨2, by decide, by decide, by decide⟩

end RabbitLyrics
